import Mathlib

/-!
# Verification of the `hookable` hook registry (src/hookable.ts)

Shallow embedding of the `Hookable` class.  Callback function references are
modelled by natural-number identities (`Cb`); the JavaScript object holding
`this._hooks` is modelled as an association list from hook names to values,
where a value `none` models a key that is present with value `undefined`
(as `deprecateHook` leaves behind) and `some l` models a stored array.

The companion modules `src/utils.ts` and `src/types.ts` are not part of the
repository snapshot; the pieces of behaviour that live there (`flatHooks`,
the caller strategies, `callEachWith`) are modelled from the specification
and are marked as such in their doc comments.
-/

/-- Callback identity: a JavaScript function reference. -/
abbrev Cb := Nat

/-- A deprecation record `{ to, message? }` (from `src/types.ts` shape as used
by `hookable.ts`).  An empty string models a falsy `to`. -/
structure Dep where
  toName : String
  message : Option String
deriving DecidableEq, Repr

/-- `getVal m k` models JavaScript property read `m[k]` on an object with
string keys (first matching entry; keys are unique in reachable states). -/
def getVal {α : Type} : List (String × α) → String → Option α
  | [], _ => none
  | (k, v) :: rest, key => if k = key then some v else getVal rest key

/-- `setVal m k v` models JavaScript property write `m[k] = v`: replace the
existing entry in place, otherwise append a new one. -/
def setVal {α : Type} : List (String × α) → String → α → List (String × α)
  | [], key, v => [(key, v)]
  | (k, w) :: rest, key, v =>
    if k = key then (key, v) :: rest else (k, w) :: setVal rest key v

/-- `delVal m k` models `delete m[k]` (keys are unique in reachable states,
so removing every entry with key `k` coincides with deleting the single one). -/
def delVal {α : Type} : List (String × α) → String → List (String × α)
  | [], _ => []
  | (k, v) :: rest, key => if k = key then delVal rest key else (k, v) :: delVal rest key

/-- First-occurrence removal, as performed by
`indexOf` + `splice(index, 1)` in `removeHook`. -/
def eraseFirst : List Cb → Cb → List Cb
  | [], _ => []
  | c :: rest, cb => if c = cb then rest else c :: eraseFirst rest cb

/-- The mutable state of a `Hookable` instance.
`warned` is the log of messages passed to the external `console.warn`. -/
structure Hookable where
  hooks : List (String × Option (List Cb))
  before : Option (List Cb)
  after : Option (List Cb)
  deprecatedHooks : List (String × Dep)
  deprecatedMessages : Option (List String)
  warned : List String
deriving DecidableEq, Repr

/-- The state built by the `Hookable` constructor. -/
def hookableInit : Hookable := ⟨[], none, none, [], none, []⟩

/-- `this._hooks[name]` viewed as an array: `some l` iff the key is present
and holds an array (a key that is absent, or present with `undefined`, both
read back as a falsy `undefined`). -/
def hooksGet (st : Hookable) (name : String) : Option (List Cb) :=
  match getVal st.hooks name with
  | some (some l) => some l
  | _ => none

/-- The loop `while (this._deprecatedHooks[name]) { dep = ...; name = dep.to }`
from `hook`, with explicit fuel; returns the resolved name together with the
last deprecation record followed (`dep` in the source), or `none` when the
fuel is exhausted while an alias entry still exists (the loop would continue). -/
def chase (deps : List (String × Dep)) : Nat → String → Option Dep → Option (String × Option Dep)
  | fuel, name, lastDep =>
    match fuel, getVal deps name with
    | _, none => some (name, lastDep)
    | 0, some _ => none
    | Nat.succ f, some d => chase deps f d.toName (some d)

/-- The deprecation warning text computed in `hook`: the configured message
when it is truthy, otherwise
`` `${originalName} hook has been deprecated` + (dep.to ? `, please use ${dep.to}` : "") ``. -/
def depMessage (originalName : String) (dep : Dep) : String :=
  let synth := originalName ++ " hook has been deprecated" ++
    (if dep.toName = "" then "" else ", please use " ++ dep.toName)
  match dep.message with
  | some m => if m = "" then synth else m
  | none => synth

/-- The warning block of `hook`: when a hop occurred (`dep` is set) and
`allowDeprecated` was not passed, lazily create the `_deprecatedMessages`
set and `console.warn` the message unless it was already recorded. -/
def applyWarn (st : Hookable) (originalName : String) (lastDep : Option Dep)
    (allowDeprecated : Bool) : Hookable :=
  match lastDep with
  | none => st
  | some dep =>
    if allowDeprecated then st
    else
      let message := depMessage originalName dep
      let msgs := st.deprecatedMessages.getD []
      if message ∈ msgs then { st with deprecatedMessages := some msgs }
      else { st with deprecatedMessages := some (msgs ++ [message]),
                     warned := st.warned ++ [message] }

/-- The unregister closure returned by `hook`: it captures the resolved name
and a clearable reference to the registered callback (`ref = none` models
both the no-op handle returned for invalid input and a handle whose
`function_` variable has been set to `undefined`). -/
structure Unreg where
  name : String
  ref : Option Cb
deriving DecidableEq, Repr

/-- `removeHook(name, function_)`: if `this._hooks[name]` is truthy, splice
out the first occurrence of the callback, then delete the key when the
array has become empty. -/
def removeHook (st : Hookable) (name : String) (cb : Cb) : Hookable :=
  match hooksGet st name with
  | none => st
  | some l =>
    if eraseFirst l cb = [] then { st with hooks := delVal st.hooks name }
    else { st with hooks := setVal st.hooks name (some (eraseFirst l cb)) }

/-- Invoking an unregister handle: on first use it removes the captured
callback from the captured (resolved) name and clears its reference
(`function_ = undefined`); with a cleared reference it does nothing. -/
def runUnreg (h : Unreg) (st : Hookable) : Unreg × Hookable :=
  match h.ref with
  | none => (h, st)
  | some cb => ({ h with ref := none }, removeHook st h.name cb)

/-- `hook(name, function_, options)`.  A falsy name or non-callable value
(modelled by `none`) yields an untouched state and a no-op handle.  Otherwise
the name is resolved through the deprecation chain (`chase`; `none` models
the non-terminating loop on cyclic alias tables), the warning block runs,
and the callback is appended to the resolved name's array. -/
def hook (st : Hookable) (name : String) (function_ : Option Cb)
    (allowDeprecated : Bool) (fuel : Nat) : Option (Hookable × Unreg) :=
  match function_ with
  | none => some (st, ⟨name, none⟩)
  | some cb =>
    if name = "" then some (st, ⟨name, none⟩)
    else
      match chase st.deprecatedHooks fuel name none with
      | none => none
      | some (resolved, lastDep) =>
        let st1 := applyWarn st name lastDep allowDeprecated
        let bucket := (hooksGet st1 resolved).getD []
        some ({ st1 with hooks := setVal st1.hooks resolved (some (bucket ++ [cb])) },
              ⟨resolved, some cb⟩)

/-- `deprecateHook(name, deprecated)`: record the alias, read the hooks
currently stored directly under `name`, overwrite that slot with `undefined`,
and re-register each of those hooks through `hook` (default options). -/
def deprecateHook (st : Hookable) (name : String) (dep : Dep) (fuel : Nat) :
    Option Hookable :=
  let stA := { st with deprecatedHooks := setVal st.deprecatedHooks name dep }
  let hs := (hooksGet stA name).getD []
  let stB := { stA with hooks := setVal stA.hooks name none }
  hs.foldlM (fun s cb => (hook s name (some cb) false fuel).map Prod.fst) stB

/-- `deprecateHooks(deprecatedHooks)`: `Object.assign` all entries onto the
alias table, then run `deprecateHook` for each entry. -/
def deprecateHooks (st : Hookable) (entries : List (String × Dep)) (fuel : Nat) :
    Option Hookable :=
  let st0 := entries.foldl
    (fun s e => { s with deprecatedHooks := setVal s.deprecatedHooks e.1 e.2 }) st
  entries.foldlM (fun s e => deprecateHook s e.1 e.2 fuel) st0

/-- `beforeEach(function_)` (append part; the returned handle is not needed
by the claims below). -/
def beforeEach (st : Hookable) (cb : Cb) : Hookable :=
  { st with before := some (st.before.getD [] ++ [cb]) }

/-- `afterEach(function_)` (append part). -/
def afterEach (st : Hookable) (cb : Cb) : Hookable :=
  { st with after := some (st.after.getD [] ++ [cb]) }

/-- The hook list handed to the caller strategy by `callHookWith`:
`this._hooks[name] || []`, read at call start. -/
def dispatchSnapshot (st : Hookable) (name : String) : List Cb :=
  (hooksGet st name).getD []

/-- The result of a caller strategy, as tested by
`result instanceof Promise` in `callHookWith`: a plain synchronous value,
or an awaitable that settles with a value or with an error. -/
inductive Outcome where
  | sync (v : Nat)
  | asyncOk (v : Nat)
  | asyncErr (e : Nat)
deriving DecidableEq, Repr

/-- The interception event `{ name, args, context }` built once per dispatch
(`context` starts as a fresh empty object). -/
structure Event where
  name : String
  args : List Nat
  context : List (String × Nat)
deriving DecidableEq, Repr

/-- One observable step of a dispatch: a before-interceptor invocation, the
caller strategy running over the snapshot, or an after-interceptor
invocation.  Interceptor invocations record the event value they receive. -/
inductive CallEvent where
  | beforeCall (interceptor : Cb) (ev : Event)
  | hooksRun (snapshot : List Cb) (outcome : Outcome)
  | afterCall (interceptor : Cb) (ev : Event)
deriving DecidableEq, Repr

/-- `callHookWith(caller, name, ...args)`, returning the ordered trace of
interceptor invocations and the caller run, plus the dispatch outcome.
`callEachWith` is modelled from the spec (it lives in the absent
`src/utils.ts`): it invokes each interceptor in list order with the event.
The promise branch (`result.finally(...)`) and the synchronous branch place
the after-interceptors at the same point of the trace; the `finally`
semantics shows up as the after-interceptors being present in the trace for
`asyncErr` outcomes as well. -/
def callHookWith (st : Hookable) (caller : List Cb → List Nat → Outcome)
    (name : String) (args : List Nat) : List CallEvent × Outcome :=
  let event : Option Event :=
    if st.before.isSome || st.after.isSome then some ⟨name, args, []⟩ else none
  let beforeTrace : List CallEvent :=
    match st.before, event with
    | some bs, some ev => bs.map (fun b => CallEvent.beforeCall b ev)
    | _, _ => []
  let snap := dispatchSnapshot st name
  let outcome := caller snap args
  let afterTrace : List CallEvent :=
    match st.after, event with
    | some as_, some ev => as_.map (fun a => CallEvent.afterCall a ev)
    | _, _ => []
  (beforeTrace ++ [CallEvent.hooksRun snap outcome] ++ afterTrace, outcome)

/-- The callbacks a dispatch trace hands to the caller strategy. -/
def invokedHooks : List CallEvent → List Cb
  | [] => []
  | CallEvent.hooksRun snap _ :: rest => snap ++ invokedHooks rest
  | _ :: rest => invokedHooks rest

/-- Modelled from the spec: the caller strategies (`serialCaller`,
`parallelCaller` in the absent `src/utils.ts`) capture the hook list handed
to them at call start.  `callHookBegin` is that capture. -/
def callHookBegin (st : Hookable) (name : String) : List Cb :=
  dispatchSnapshot st name

/-- Modelled from the spec: completing an in-flight dispatch invokes exactly
the captured list, whatever the registry state has become in the meantime. -/
def callHookFinish (snapshot : List Cb) (_currentState : Hookable) : List Cb :=
  snapshot

/-- Nested hook configuration as accepted by `addHooks`/`removeHooks`:
leaves are callable values. -/
inductive NestedHooks where
  | leaf : Cb → NestedHooks
  | node : List (String × NestedHooks) → NestedHooks

/-- Key joining used by the flattening: a parent path extends a key with a
dot separator. -/
def joinName : Option String → String → String
  | none, k => k
  | some p, k => p ++ "." ++ k

mutual
/-- Modelled from the spec: `flatHooks` lives in the absent `src/utils.ts`;
per the spec, nested keys are recursively joined with `.` until a callable
value is reached. -/
def flatHooksSub : Option String → String → NestedHooks → List (String × Cb)
  | parent, key, NestedHooks.leaf cb => [(joinName parent key, cb)]
  | parent, key, NestedHooks.node es => flatHooksList (some (joinName parent key)) es

/-- Flattening of a list of config entries under a parent path. -/
def flatHooksList : Option String → List (String × NestedHooks) → List (String × Cb)
  | _, [] => []
  | parent, (k, sub) :: rest => flatHooksSub parent k sub ++ flatHooksList parent rest
end

/-- Top-level flattening of a nested config (no parent path). -/
def flatHooks (config : List (String × NestedHooks)) : List (String × Cb) :=
  flatHooksList none config

/-- The composite handle returned by `addHooks`: a mutable array of pending
unregister handles, drained by `splice(0, length)` on first invocation. -/
structure CompositeHandle where
  fns : List Unreg
deriving DecidableEq, Repr

/-- Invoking the composite handle: drain the pending list and run every
drained unregister handle once; a drained handle runs no operations. -/
def runComposite (h : CompositeHandle) (st : Hookable) : CompositeHandle × Hookable :=
  (⟨[]⟩, h.fns.foldl (fun s u => (runUnreg u s).2) st)

/-- `addHooks(configHooks)`: flatten the config, register every flattened
entry through `hook`, and collect the returned unregister handles into a
composite handle. -/
def addHooks (st : Hookable) (config : List (String × NestedHooks)) (fuel : Nat) :
    Option (Hookable × CompositeHandle) :=
  let entries := flatHooks config
  (entries.foldlM
      (fun (acc : Hookable × List Unreg) e =>
        (hook acc.1 e.1 (some e.2) false fuel).map (fun p => (p.1, acc.2 ++ [p.2])))
      (st, [])).map
    (fun p => (p.1, ⟨p.2⟩))

/-- `removeHooks(configHooks)`: flatten the config, then remove each entry
by its literal flattened name. -/
def removeHooks (st : Hookable) (config : List (String × NestedHooks)) : Hookable :=
  (flatHooks config).foldl (fun s e => removeHook s e.1 e.2) st

/-- State of a `hookOnce` registration: the registry, the wrapper's captured
`_unreg` variable (`none` once it has been set to `undefined`), and how many
times the original callback has been invoked.  The wrapper closure never
clears its captured `function_`, so forwarding is unconditional. -/
structure OnceState where
  reg : Hookable
  unregRef : Option Unreg
  fired : Nat
deriving DecidableEq, Repr

/-- `hookOnce(name, function_)`: register the fresh wrapper `w` through
`hook` and capture the returned unregister handle in `_unreg`. -/
def hookOnceStart (st : Hookable) (name : String) (w : Cb) (fuel : Nat) :
    Option OnceState :=
  (hook st name (some w) false fuel).map (fun p => ⟨p.1, some p.2, 0⟩)

/-- The first half of the wrapper body: if `_unreg` is still a function,
invoke it, then set `_unreg` (and `_function`) to `undefined`. -/
def wrapperUnregStep (os : OnceState) : OnceState :=
  match os.unregRef with
  | some u => { os with reg := (runUnreg u os.reg).2, unregRef := none }
  | none => { os with unregRef := none }

/-- The second half of the wrapper body:
`return function_(...arguments_)` — the original callback is invoked
unconditionally. -/
def wrapperForwardStep (os : OnceState) : OnceState :=
  { os with fired := os.fired + 1 }

/-- A full invocation of the stored wrapper closure. -/
def invokeWrapper (os : OnceState) : OnceState :=
  wrapperForwardStep (wrapperUnregStep os)

/-- Run a dispatch snapshot against the wrapper: each occurrence of the
wrapper identity `w` in the snapshot invokes the wrapper closure; other
callbacks do not touch the `hookOnce` state. -/
def runSnapshot (w : Cb) (snap : List Cb) (os : OnceState) : OnceState :=
  snap.foldl (fun o c => if c = w then invokeWrapper o else o) os

/-- A dispatch of `name` that begins and completes before the next one
begins: its snapshot is taken from the current registry state. -/
def seqDispatch (w : Cb) (name : String) (os : OnceState) : OnceState :=
  runSnapshot w (dispatchSnapshot os.reg name) os

/-- Iterated sequential dispatches of the same name. -/
def iterSeqDispatch (w : Cb) (name : String) : Nat → OnceState → OnceState
  | 0, os => os
  | Nat.succ n, os => iterSeqDispatch w name n (seqDispatch w name os)

/-- One public registry operation, for reachable-state invariants. -/
inductive HookOp where
  | opHook (name : String) (fn : Option Cb) (allow : Bool)
  | opHookOnce (name : String) (w : Cb)
  | opRemoveHook (name : String) (cb : Cb)
  | opDeprecateHook (name : String) (dep : Dep)
  | opDeprecateHooks (entries : List (String × Dep))
  | opAddHooks (config : List (String × NestedHooks))
  | opRemoveHooks (config : List (String × NestedHooks))
  | opUnregister (u : Unreg)

/-- Apply one public operation to a registry state (`none` when the
deprecation chain resolution inside it would not terminate). -/
def applyHookOp (fuel : Nat) (st : Hookable) : HookOp → Option Hookable
  | HookOp.opHook n fn al => (hook st n fn al fuel).map Prod.fst
  | HookOp.opHookOnce n w => (hook st n (some w) false fuel).map Prod.fst
  | HookOp.opRemoveHook n cb => some (removeHook st n cb)
  | HookOp.opDeprecateHook n d => deprecateHook st n d fuel
  | HookOp.opDeprecateHooks es => deprecateHooks st es fuel
  | HookOp.opAddHooks cfg => (addHooks st cfg fuel).map Prod.fst
  | HookOp.opRemoveHooks cfg => some (removeHooks st cfg)
  | HookOp.opUnregister u => some ((runUnreg u st).2)

/-- Run a sequence of public operations from the freshly constructed
registry. -/
def runHookOps (fuel : Nat) : List HookOp → Hookable → Option Hookable
  | [], st => some st
  | op :: rest, st => (applyHookOp fuel st op).bind (runHookOps fuel rest)

theorem getVal_setVal_self {α : Type} (m : List (String × α)) (k : String) (v : α) :
    getVal (setVal m k v) k = some v := by
  induction m with
  | nil => simp [setVal, getVal]
  | cons p rest ih =>
    obtain ⟨k1, w⟩ := p
    by_cases h : k1 = k
    · simp [setVal, h, getVal]
    · simp [setVal, h, getVal, ih]

theorem getVal_setVal_ne {α : Type} (m : List (String × α)) (k k2 : String) (v : α)
    (h : k2 ≠ k) : getVal (setVal m k v) k2 = getVal m k2 := by
  induction m with
  | nil => simp [setVal, getVal, Ne.symm h]
  | cons p rest ih =>
    obtain ⟨k1, w⟩ := p
    by_cases h1 : k1 = k
    · subst h1
      simp [setVal, getVal, Ne.symm h]
    · simp [setVal, h1, getVal, ih]

theorem setVal_setVal {α : Type} (m : List (String × α)) (k : String) (v v2 : α) :
    setVal (setVal m k v) k v2 = setVal m k v2 := by
  induction m with
  | nil => simp [setVal]
  | cons p rest ih =>
    obtain ⟨k1, w⟩ := p
    by_cases h : k1 = k
    · simp [setVal, h]
    · simp [setVal, h, ih]

theorem getVal_delVal_self {α : Type} (m : List (String × α)) (k : String) :
    getVal (delVal m k) k = none := by
  induction m with
  | nil => simp [delVal, getVal]
  | cons p rest ih =>
    obtain ⟨k1, w⟩ := p
    by_cases h : k1 = k
    · simp [delVal, h, ih]
    · simp [delVal, h, getVal, ih]

theorem getVal_delVal_ne {α : Type} (m : List (String × α)) (k k2 : String)
    (h : k2 ≠ k) : getVal (delVal m k) k2 = getVal m k2 := by
  induction m with
  | nil => simp [delVal]
  | cons p rest ih =>
    obtain ⟨k1, w⟩ := p
    by_cases h1 : k1 = k
    · subst h1
      simp [delVal, getVal, Ne.symm h, ih]
    · simp [delVal, h1, getVal, ih]

theorem mem_keys_setVal {α : Type} (m : List (String × α)) (k x : String) (v : α) :
    x ∈ (setVal m k v).map Prod.fst ↔ x = k ∨ x ∈ m.map Prod.fst := by
  induction m with
  | nil => simp [setVal]
  | cons p rest ih =>
    obtain ⟨k1, w⟩ := p
    by_cases h : k1 = k
    · subst h
      simp [setVal]
    · simp only [setVal, if_neg h, List.map_cons, List.mem_cons, ih]
      tauto

theorem nodup_keys_setVal {α : Type} (m : List (String × α)) (k : String) (v : α)
    (h : (m.map Prod.fst).Nodup) : ((setVal m k v).map Prod.fst).Nodup := by
  induction m with
  | nil => simp [setVal]
  | cons p rest ih =>
    obtain ⟨k1, w⟩ := p
    simp only [List.map_cons, List.nodup_cons] at h
    by_cases h1 : k1 = k
    · subst h1
      simpa [setVal] using h
    · simp only [setVal, if_neg h1, List.map_cons, List.nodup_cons]
      exact ⟨fun hx => ((mem_keys_setVal rest k k1 v).mp hx).elim
          (fun he => h1 he) (fun hm => h.1 hm),
        ih h.2⟩

theorem delVal_sublist {α : Type} (m : List (String × α)) (k : String) :
    (delVal m k).Sublist m := by
  induction m with
  | nil => simp [delVal]
  | cons p rest ih =>
    obtain ⟨k1, w⟩ := p
    by_cases h : k1 = k
    · simp only [delVal, if_pos h]
      exact ih.cons _
    · simp only [delVal, if_neg h]
      exact ih.cons₂ _

theorem nodup_keys_delVal {α : Type} (m : List (String × α)) (k : String)
    (h : (m.map Prod.fst).Nodup) : ((delVal m k).map Prod.fst).Nodup :=
  ((delVal_sublist m k).map Prod.fst).nodup h

theorem eraseFirst_not_mem (l : List Cb) (cb : Cb) (h : cb ∉ l) :
    eraseFirst l cb = l := by
  induction l with
  | nil => rfl
  | cons c rest ih =>
    simp only [List.mem_cons, not_or] at h
    simp [eraseFirst, Ne.symm h.1, ih h.2]

theorem eraseFirst_append_singleton (b : List Cb) (cb : Cb) (h : cb ∉ b) :
    eraseFirst (b ++ [cb]) cb = b := by
  induction b with
  | nil => simp [eraseFirst]
  | cons c rest ih =>
    simp only [List.mem_cons, not_or] at h
    simp [eraseFirst, Ne.symm h.1, ih h.2]

theorem hooksGet_eq_of_hooks_eq (st st2 : Hookable) (h : st2.hooks = st.hooks)
    (name : String) : hooksGet st2 name = hooksGet st name := by
  unfold hooksGet
  rw [h]

theorem dispatchSnapshot_of_hooksGet_none (st : Hookable) (name : String)
    (h : hooksGet st name = none) : dispatchSnapshot st name = [] := by
  unfold dispatchSnapshot
  rw [h]
  rfl

theorem dispatchSnapshot_of_hooksGet_some (st : Hookable) (name : String)
    (l : List Cb) (h : hooksGet st name = some l) : dispatchSnapshot st name = l := by
  unfold dispatchSnapshot
  rw [h]
  rfl

theorem dispatchSnapshot_removeHook_self (st : Hookable) (name : String) (cb : Cb) :
    dispatchSnapshot (removeHook st name cb) name =
      eraseFirst (dispatchSnapshot st name) cb := by
  unfold removeHook
  cases hg : hooksGet st name with
  | none =>
    rw [dispatchSnapshot_of_hooksGet_none st name hg]
    rfl
  | some l =>
    rw [dispatchSnapshot_of_hooksGet_some st name l hg]
    dsimp only
    by_cases he : eraseFirst l cb = []
    · rw [if_pos he, he]
      unfold dispatchSnapshot hooksGet
      simp [getVal_delVal_self]
    · rw [if_neg he]
      unfold dispatchSnapshot hooksGet
      simp [getVal_setVal_self]

theorem dispatchSnapshot_removeHook_ne (st : Hookable) (name x : String) (cb : Cb)
    (h : x ≠ name) :
    dispatchSnapshot (removeHook st name cb) x = dispatchSnapshot st x := by
  unfold removeHook
  cases hg : hooksGet st name with
  | none => rfl
  | some l =>
    dsimp only
    by_cases he : eraseFirst l cb = []
    · rw [if_pos he]
      unfold dispatchSnapshot hooksGet
      rw [show ({ st with hooks := delVal st.hooks name } : Hookable).hooks
            = delVal st.hooks name from rfl]
      rw [getVal_delVal_ne _ _ _ h]
    · rw [if_neg he]
      unfold dispatchSnapshot hooksGet
      rw [show ({ st with hooks := setVal st.hooks name (some (eraseFirst l cb)) } :
            Hookable).hooks = setVal st.hooks name (some (eraseFirst l cb)) from rfl]
      rw [getVal_setVal_ne _ _ _ _ h]

/-- The `_deprecatedMessages` set after the warning block of `hook`, as a
pure function of its previous value. -/
def warnSet (msgs : Option (List String)) (o : String) (ld : Option Dep) (al : Bool) :
    Option (List String) :=
  match ld with
  | none => msgs
  | some dep =>
    if al then msgs
    else if depMessage o dep ∈ msgs.getD [] then some (msgs.getD [])
    else some (msgs.getD [] ++ [depMessage o dep])

/-- The messages passed to `console.warn` by the warning block of `hook`. -/
def warnDelta (msgs : Option (List String)) (o : String) (ld : Option Dep) (al : Bool) :
    List String :=
  match ld with
  | none => []
  | some dep =>
    if al then []
    else if depMessage o dep ∈ msgs.getD [] then []
    else [depMessage o dep]

theorem applyWarn_eq (st : Hookable) (o : String) (ld : Option Dep) (al : Bool) :
    applyWarn st o ld al =
      { st with deprecatedMessages := warnSet st.deprecatedMessages o ld al,
                warned := st.warned ++ warnDelta st.deprecatedMessages o ld al } := by
  unfold applyWarn warnSet warnDelta
  cases ld with
  | none => simp
  | some dep =>
    cases al with
    | true => simp
    | false =>
      by_cases hm : depMessage o dep ∈ st.deprecatedMessages.getD []
      · simp [hm]
      · simp [hm]

theorem warnSet_warnSet (msgs : Option (List String)) (o : String) (ld : Option Dep)
    (al : Bool) : warnSet (warnSet msgs o ld al) o ld al = warnSet msgs o ld al := by
  unfold warnSet
  cases ld with
  | none => rfl
  | some dep =>
    cases al with
    | true => rfl
    | false =>
      by_cases hm : depMessage o dep ∈ msgs.getD []
      · simp [hm]
      · simp [hm]

theorem warnDelta_warnSet (msgs : Option (List String)) (o : String) (ld : Option Dep)
    (al : Bool) : warnDelta (warnSet msgs o ld al) o ld al = [] := by
  unfold warnDelta warnSet
  cases ld with
  | none => rfl
  | some dep =>
    cases al with
    | true => rfl
    | false =>
      by_cases hm : depMessage o dep ∈ msgs.getD []
      · simp [hm]
      · simp [hm]

theorem hook_none (st : Hookable) (nm : String) (al : Bool) (fuel : Nat) :
    hook st nm none al fuel = some (st, ⟨nm, none⟩) := rfl

theorem hook_empty_name (st : Hookable) (cb : Cb) (al : Bool) (fuel : Nat) :
    hook st "" (some cb) al fuel = some (st, ⟨"", none⟩) := rfl

theorem hook_eq_of_chase (st : Hookable) (nm : String) (cb : Cb) (al : Bool)
    (fuel : Nat) (r : String) (last : Option Dep)
    (hnm : nm ≠ "") (hch : chase st.deprecatedHooks fuel nm none = some (r, last)) :
    hook st nm (some cb) al fuel =
      some ({ st with
                hooks := setVal st.hooks r (some ((hooksGet st r).getD [] ++ [cb])),
                deprecatedMessages := warnSet st.deprecatedMessages nm last al,
                warned := st.warned ++ warnDelta st.deprecatedMessages nm last al },
            ⟨r, some cb⟩) := by
  unfold hook
  dsimp only
  rw [if_neg hnm, hch]
  dsimp only
  rw [applyWarn_eq]
  rfl

theorem hook_some_fields (st : Hookable) (nm : String) (fn : Option Cb) (al : Bool)
    (fuel : Nat) (st2 : Hookable) (h : Unreg)
    (hk : hook st nm fn al fuel = some (st2, h)) :
    st2.deprecatedHooks = st.deprecatedHooks ∧ st2.before = st.before ∧
      st2.after = st.after := by
  cases fn with
  | none =>
    rw [hook_none] at hk
    simp only [Option.some.injEq, Prod.mk.injEq] at hk
    rw [← hk.1]
    exact ⟨rfl, rfl, rfl⟩
  | some cb =>
    by_cases hnm : nm = ""
    · subst hnm
      rw [hook_empty_name] at hk
      simp only [Option.some.injEq, Prod.mk.injEq] at hk
      rw [← hk.1]
      exact ⟨rfl, rfl, rfl⟩
    · cases hch : chase st.deprecatedHooks fuel nm none with
      | none =>
        unfold hook at hk
        dsimp only at hk
        rw [if_neg hnm, hch] at hk
        cases hk
      | some out =>
        obtain ⟨r, last⟩ := out
        rw [hook_eq_of_chase st nm cb al fuel r last hnm hch] at hk
        simp only [Option.some.injEq, Prod.mk.injEq] at hk
        rw [← hk.1]
        exact ⟨rfl, rfl, rfl⟩

theorem chase_final (deps : List (String × Dep)) (fuel : Nat) :
    ∀ (nm : String) (last0 : Option Dep) (r : String) (last : Option Dep),
      chase deps fuel nm last0 = some (r, last) → getVal deps r = none := by
  induction fuel with
  | zero =>
    intro nm last0 r last h
    unfold chase at h
    cases hv : getVal deps nm with
    | none =>
      rw [hv] at h
      simp only [Option.some.injEq, Prod.mk.injEq] at h
      rw [← h.1]
      exact hv
    | some d => rw [hv] at h; cases h
  | succ f ih =>
    intro nm last0 r last h
    unfold chase at h
    cases hv : getVal deps nm with
    | none =>
      rw [hv] at h
      simp only [Option.some.injEq, Prod.mk.injEq] at h
      rw [← h.1]
      exact hv
    | some d =>
      rw [hv] at h
      exact ih d.toName (some d) r last h

theorem chase_last_toName (deps : List (String × Dep)) (fuel : Nat) :
    ∀ (nm : String) (last0 : Option Dep) (r : String) (d2 : Dep),
      (∀ d, last0 = some d → nm = d.toName) →
      chase deps fuel nm last0 = some (r, some d2) → r = d2.toName := by
  induction fuel with
  | zero =>
    intro nm last0 r d2 hinv h
    unfold chase at h
    cases hv : getVal deps nm with
    | none =>
      rw [hv] at h
      simp only [Option.some.injEq, Prod.mk.injEq] at h
      rw [← h.1]
      exact hinv d2 h.2
    | some d => rw [hv] at h; cases h
  | succ f ih =>
    intro nm last0 r d2 hinv h
    unfold chase at h
    cases hv : getVal deps nm with
    | none =>
      rw [hv] at h
      simp only [Option.some.injEq, Prod.mk.injEq] at h
      rw [← h.1]
      exact hinv d2 h.2
    | some d =>
      rw [hv] at h
      exact ih d.toName (some d) r d2 (fun d3 hd3 => by cases hd3; rfl) h

theorem chase_of_no_deps (fuel : Nat) (nm : String) :
    chase [] fuel nm none = some (nm, none) := by
  unfold chase
  cases fuel <;> rfl

theorem invokedHooks_append (a b : List CallEvent) :
    invokedHooks (a ++ b) = invokedHooks a ++ invokedHooks b := by
  induction a with
  | nil => simp [invokedHooks]
  | cons c rest ih => cases c <;> simp [invokedHooks, ih]

theorem invokedHooks_map_beforeCall (bs : List Cb) (ev : Event) :
    invokedHooks (bs.map (fun b => CallEvent.beforeCall b ev)) = [] := by
  induction bs with
  | nil => rfl
  | cons c rest ih => simp [invokedHooks, ih]

theorem invokedHooks_map_afterCall (as_ : List Cb) (ev : Event) :
    invokedHooks (as_.map (fun a => CallEvent.afterCall a ev)) = [] := by
  induction as_ with
  | nil => rfl
  | cons c rest ih => simp [invokedHooks, ih]

theorem invokedHooks_callHookWith (st : Hookable) (caller : List Cb → List Nat → Outcome)
    (name : String) (args : List Nat) :
    invokedHooks (callHookWith st caller name args).1 = dispatchSnapshot st name := by
  unfold callHookWith
  cases hb : st.before <;> cases ha : st.after <;>
    simp [hb, ha, invokedHooks_append, invokedHooks_map_beforeCall,
      invokedHooks_map_afterCall, invokedHooks]

/-- Claim C1: every dispatch operates over the snapshot of the hook list for
the dispatched name taken at call start.  (1) Completing an in-flight
dispatch invokes exactly the captured snapshot, whatever state the registry
has been mutated to in the meantime; (2) `callHookWith` hands the caller
strategy exactly `this._hooks[name] || []` as read at call start; (3) a
mutation such as `removeHook` is visible to subsequent dispatches: their
snapshot is the mutated list. -/
theorem claim1_dispatch_snapshot (st : Hookable) (caller : List Cb → List Nat → Outcome)
    (name : String) (args : List Nat) (cb : Cb) :
    (∀ mutated : Hookable,
        callHookFinish (callHookBegin st name) mutated = dispatchSnapshot st name)
    ∧ invokedHooks (callHookWith st caller name args).1 = dispatchSnapshot st name
    ∧ dispatchSnapshot (removeHook st name cb) name =
        eraseFirst (dispatchSnapshot st name) cb :=
  ⟨fun _ => rfl, invokedHooks_callHookWith st caller name args,
    dispatchSnapshot_removeHook_self st name cb⟩

/-- Claim C4: when a before- or after-interceptor is registered, one event
value `{name, args, context := {}}` is built for the dispatch; every
before-interceptor receives it, in registration order, before the caller
strategy runs over the hooks; every after-interceptor receives the same
event value after the outcome, on success and failure alike (the `finally`
branch for awaitable results, the immediate branch otherwise). -/
theorem claim4_interceptor_protocol (st : Hookable)
    (caller : List Cb → List Nat → Outcome) (name : String) (args : List Nat)
    (h : st.before.isSome ∨ st.after.isSome) :
    (callHookWith st caller name args).1 =
      (st.before.getD []).map (fun b => CallEvent.beforeCall b ⟨name, args, []⟩)
      ++ [CallEvent.hooksRun (dispatchSnapshot st name)
            (caller (dispatchSnapshot st name) args)]
      ++ (st.after.getD []).map (fun a => CallEvent.afterCall a ⟨name, args, []⟩) := by
  unfold callHookWith
  cases hb : st.before <;> cases ha : st.after <;> simp_all

/-- Witness for C4 at a concrete registry, with a failing awaitable outcome:
the after-interceptor still observes the event (`finally` semantics). -/
theorem claim4_interceptor_protocol_witness :
    (callHookWith ⟨[("x", some [7])], some [3], some [4], [], none, []⟩
        (fun _ _ => Outcome.asyncErr 9) "x" [1, 2]).1 =
      [CallEvent.beforeCall 3 ⟨"x", [1, 2], []⟩,
       CallEvent.hooksRun [7] (Outcome.asyncErr 9),
       CallEvent.afterCall 4 ⟨"x", [1, 2], []⟩] :=
  (claim4_interceptor_protocol ⟨[("x", some [7])], some [3], some [4], [], none, []⟩
      (fun _ _ => Outcome.asyncErr 9) "x" [1, 2] (Or.inl rfl)).trans (by decide)

/-- Counterexample to C3 as stated: with `1` already registered under `"n"`
ahead of `2`, registering `1` again and invoking the returned handle yields
dispatch order `[2, 1]`, not the original `[1, 2]` — `removeHook` splices
out the *first* occurrence, so the round-trip changes dispatch order. -/
theorem claim3_counterexample :
    ((hook hookableInit "n" (some 1) false 0).bind (fun p1 =>
      (hook p1.1 "n" (some 2) false 0).bind (fun p2 =>
        (hook p2.1 "n" (some 1) false 0).map (fun p3 =>
          (dispatchSnapshot p2.1 "n",
           dispatchSnapshot (runUnreg p3.2 p3.1).2 "n")))))
      = some ([1, 2], [2, 1])
    ∧ ([1, 2] : List Cb) ≠ [2, 1] := by
  constructor
  · decide
  · decide

/-- Claim C3, amended: the register/unregister round-trip leaves the dispatch
list of every name unchanged *provided the callback was not already present
under the resolved name*; the used handle's reference is cleared, so any
second or later invocation of it, in any state, is a no-op (in particular it
cannot remove a future insertion of the same callback). -/
theorem claim3_roundtrip_amended (st : Hookable) (name : String) (cb : Cb)
    (al : Bool) (fuel : Nat) (st1 : Hookable) (h : Unreg)
    (hk : hook st name (some cb) al fuel = some (st1, h))
    (hcb : cb ∉ dispatchSnapshot st h.name) :
    (∀ x, dispatchSnapshot (runUnreg h st1).2 x = dispatchSnapshot st x)
    ∧ (∀ st2 : Hookable, runUnreg (runUnreg h st1).1 st2 = ((runUnreg h st1).1, st2)) := by
  by_cases hnm : name = ""
  · subst hnm
    rw [hook_empty_name] at hk
    simp only [Option.some.injEq, Prod.mk.injEq] at hk
    obtain ⟨h1, h2⟩ := hk
    subst h1
    subst h2
    exact ⟨fun x => rfl, fun st2 => rfl⟩
  · cases hch : chase st.deprecatedHooks fuel name none with
    | none =>
      unfold hook at hk
      dsimp only at hk
      rw [if_neg hnm, hch] at hk
      cases hk
    | some out =>
      obtain ⟨r, last⟩ := out
      rw [hook_eq_of_chase st name cb al fuel r last hnm hch] at hk
      simp only [Option.some.injEq, Prod.mk.injEq] at hk
      obtain ⟨h1, h2⟩ := hk
      subst h2
      have hname : (Unreg.mk r (some cb)).name = r := rfl
      rw [hname] at hcb
      have hb : dispatchSnapshot st r = (hooksGet st r).getD [] := rfl
      have hcb2 : cb ∉ (hooksGet st r).getD [] := by rw [← hb]; exact hcb
      have hrun : (runUnreg (Unreg.mk r (some cb)) st1).2 = removeHook st1 r cb := rfl
      have hrun1 : (runUnreg (Unreg.mk r (some cb)) st1).1 = Unreg.mk r none := rfl
      constructor
      · intro x
        rw [hrun]
        by_cases hx : x = r
        · subst hx
          rw [dispatchSnapshot_removeHook_self]
          have hsnap1 : dispatchSnapshot st1 x = (hooksGet st x).getD [] ++ [cb] := by
            subst h1
            unfold dispatchSnapshot hooksGet
            dsimp only
            rw [getVal_setVal_self]
            rfl
          rw [hsnap1, eraseFirst_append_singleton _ _ hcb2, hb]
        · rw [dispatchSnapshot_removeHook_ne _ _ _ _ hx]
          subst h1
          unfold dispatchSnapshot hooksGet
          dsimp only
          rw [getVal_setVal_ne _ _ _ _ hx]
      · intro st2
        rw [hrun1]
        rfl

/-- Witness for the amended C3 at a concrete input. -/
theorem claim3_roundtrip_amended_witness :
    ((1 : Cb) ∉ dispatchSnapshot hookableInit "n")
    ∧ dispatchSnapshot
        (runUnreg ⟨"n", some 1⟩ ⟨[("n", some [1])], none, none, [], none, []⟩).2 "n" =
        dispatchSnapshot hookableInit "n"
    ∧ runUnreg (runUnreg ⟨"n", some 1⟩
          ⟨[("n", some [1])], none, none, [], none, []⟩).1 hookableInit =
        ((runUnreg ⟨"n", some 1⟩ ⟨[("n", some [1])], none, none, [], none, []⟩).1,
          hookableInit) := by
  have h := claim3_roundtrip_amended hookableInit "n" 1 false 0
    ⟨[("n", some [1])], none, none, [], none, []⟩ ⟨"n", some 1⟩ (by decide) (by decide)
  exact ⟨by decide, h.1 "n", h.2 hookableInit⟩

theorem dispatchSnapshot_setVal_self (st2 st : Hookable) (r : String) (l : List Cb)
    (h : st2.hooks = setVal st.hooks r (some l)) : dispatchSnapshot st2 r = l := by
  unfold dispatchSnapshot hooksGet
  rw [h, getVal_setVal_self]
  rfl

theorem dispatchSnapshot_setVal_ne (st2 st : Hookable) (r x : String)
    (v : Option (List Cb)) (h : st2.hooks = setVal st.hooks r v) (hx : x ≠ r) :
    dispatchSnapshot st2 x = dispatchSnapshot st x := by
  unfold dispatchSnapshot hooksGet
  rw [h, getVal_setVal_ne _ _ _ _ hx]

theorem runSnapshot_not_mem (w : Cb) (snap : List Cb) (os : OnceState)
    (h : w ∉ snap) : runSnapshot w snap os = os := by
  induction snap generalizing os with
  | nil => rfl
  | cons c rest ih =>
    simp only [List.mem_cons, not_or] at h
    unfold runSnapshot
    rw [List.foldl_cons, if_neg (Ne.symm h.1)]
    exact ih _ h.2

theorem runSnapshot_append (w : Cb) (a b : List Cb) (os : OnceState) :
    runSnapshot w (a ++ b) os = runSnapshot w b (runSnapshot w a os) := by
  unfold runSnapshot
  rw [List.foldl_append]

theorem runSnapshot_singleton (w : Cb) (os : OnceState) :
    runSnapshot w [w] os = invokeWrapper os := by
  unfold runSnapshot
  rw [List.foldl_cons, if_pos rfl, List.foldl_nil]

theorem iterSeqDispatch_fixed (w : Cb) (name : String) (os : OnceState)
    (h : w ∉ dispatchSnapshot os.reg name) :
    ∀ n, iterSeqDispatch w name n os = os := by
  intro n
  induction n with
  | zero => rfl
  | succ m ih =>
    unfold iterSeqDispatch
    have hfix : seqDispatch w name os = os := by
      unfold seqDispatch
      exact runSnapshot_not_mem _ _ _ h
    rw [hfix]
    exact ih

/-- Counterexample to C6 as stated: two dispatches of `"n"` that both
snapshot the hook list before either runs (the promise chains built by two
back-to-back `callHook("n")` calls) each invoke the `hookOnce` wrapper, and
the wrapper forwards unconditionally (`function_` is never cleared), so the
original callback fires twice. -/
theorem claim6_counterexample :
    ((hookOnceStart hookableInit "n" 0 1).map (fun os0 =>
        (runSnapshot 0 (dispatchSnapshot os0.reg "n")
          (runSnapshot 0 (dispatchSnapshot os0.reg "n") os0)).fired))
      = some 2
    ∧ ¬ (2 ≤ 1) := by
  constructor
  · decide
  · decide

/-- Claim C6, amended: the `hookOnce` wrapper self-unregisters before
forwarding, so (1) across any number of *sequential* dispatches — each
completing before the next snapshots the hook list — the original callback
fires at most once, and (2) already after the wrapper's unregister step (so
before the original callback even runs) the wrapper is gone from the hook
list, hence a reentrant dispatch triggered from inside the callback does not
fire it again.  Overlapping dispatches that each snapshot the list before
the first invocation can each fire the callback (see the counterexample). -/
theorem claim6_hookOnce_amended (st : Hookable) (name : String) (w : Cb) (fuel : Nat)
    (os0 : OnceState)
    (hdeps : st.deprecatedHooks = [])
    (hnm : name ≠ "")
    (hw : ∀ k, w ∉ dispatchSnapshot st k)
    (hstart : hookOnceStart st name w fuel = some os0) :
    (∀ n, (iterSeqDispatch w name n os0).fired ≤ 1)
    ∧ w ∉ dispatchSnapshot (wrapperUnregStep os0).reg name := by
  have hch : chase st.deprecatedHooks fuel name none = some (name, none) := by
    rw [hdeps]
    exact chase_of_no_deps fuel name
  have hk := hook_eq_of_chase st name w false fuel name none hnm hch
  unfold hookOnceStart at hstart
  rw [hk] at hstart
  simp only [Option.map_some', Option.some.injEq] at hstart
  subst hstart
  have hwb : w ∉ (hooksGet st name).getD [] := hw name
  have hsnapR : dispatchSnapshot
      ({ st with
          hooks := setVal st.hooks name (some ((hooksGet st name).getD [] ++ [w])),
          deprecatedMessages := warnSet st.deprecatedMessages name none false,
          warned := st.warned ++ warnDelta st.deprecatedMessages name none false })
      name = (hooksGet st name).getD [] ++ [w] :=
    dispatchSnapshot_setVal_self _ st name _ rfl
  have hsnapF : ∀ k, w ∉ dispatchSnapshot
      (removeHook
        ({ st with
            hooks := setVal st.hooks name (some ((hooksGet st name).getD [] ++ [w])),
            deprecatedMessages := warnSet st.deprecatedMessages name none false,
            warned := st.warned ++ warnDelta st.deprecatedMessages name none false })
        name w) k := by
    intro k
    by_cases hk2 : k = name
    · subst hk2
      rw [dispatchSnapshot_removeHook_self, hsnapR,
        eraseFirst_append_singleton _ _ hwb]
      exact hwb
    · rw [dispatchSnapshot_removeHook_ne _ _ _ _ hk2,
        dispatchSnapshot_setVal_ne _ st name k _ rfl hk2]
      exact hw k
  have hseq : seqDispatch w name
      ⟨{ st with
          hooks := setVal st.hooks name (some ((hooksGet st name).getD [] ++ [w])),
          deprecatedMessages := warnSet st.deprecatedMessages name none false,
          warned := st.warned ++ warnDelta st.deprecatedMessages name none false },
        some ⟨name, some w⟩, 0⟩ =
      ⟨removeHook
          ({ st with
              hooks := setVal st.hooks name (some ((hooksGet st name).getD [] ++ [w])),
              deprecatedMessages := warnSet st.deprecatedMessages name none false,
              warned := st.warned ++ warnDelta st.deprecatedMessages name none false })
          name w,
        none, 1⟩ := by
    unfold seqDispatch
    rw [show (⟨{ st with
          hooks := setVal st.hooks name (some ((hooksGet st name).getD [] ++ [w])),
          deprecatedMessages := warnSet st.deprecatedMessages name none false,
          warned := st.warned ++ warnDelta st.deprecatedMessages name none false },
        some ⟨name, some w⟩, 0⟩ : OnceState).reg =
      { st with
          hooks := setVal st.hooks name (some ((hooksGet st name).getD [] ++ [w])),
          deprecatedMessages := warnSet st.deprecatedMessages name none false,
          warned := st.warned ++ warnDelta st.deprecatedMessages name none false }
      from rfl]
    rw [hsnapR, runSnapshot_append, runSnapshot_not_mem w _ _ hwb,
      runSnapshot_singleton]
    rfl
  constructor
  · intro n
    cases n with
    | zero => exact Nat.zero_le 1
    | succ m =>
      unfold iterSeqDispatch
      rw [hseq, iterSeqDispatch_fixed w name _ (hsnapF name) m]
  · exact hsnapF name

/-- Witness for the amended C6 at a concrete registry. -/
theorem claim6_hookOnce_amended_witness :
    (iterSeqDispatch 0 "n" 3
        ⟨⟨[("n", some [0])], none, none, [], none, []⟩, some ⟨"n", some 0⟩, 0⟩).fired ≤ 1
    ∧ (0 : Cb) ∉ dispatchSnapshot
        (wrapperUnregStep
          ⟨⟨[("n", some [0])], none, none, [], none, []⟩, some ⟨"n", some 0⟩, 0⟩).reg "n" := by
  have h := claim6_hookOnce_amended hookableInit "n" 0 1
    ⟨⟨[("n", some [0])], none, none, [], none, []⟩, some ⟨"n", some 0⟩, 0⟩
    rfl (by decide)
    (fun k => by simp [dispatchSnapshot, hooksGet, hookableInit, getVal])
    (by decide)
  exact ⟨h.1 3, h.2⟩

/-- One hop of the deprecation alias graph: `a` has an alias entry whose
target is `b`. -/
def depStep (deps : List (String × Dep)) (a b : String) : Prop :=
  ∃ d, getVal deps a = some d ∧ d.toName = b

/-- Acyclicity of the alias graph: no name is reachable from itself by
following deprecation targets. -/
def AcyclicDeps (deps : List (String × Dep)) : Prop :=
  ∀ a, ¬ Relation.TransGen (depStep deps) a a

/-- The distinct names having an alias entry. -/
def depKeys (deps : List (String × Dep)) : List String :=
  (deps.map Prod.fst).dedup

theorem getVal_mem_keys {α : Type} (m : List (String × α)) (k : String) (v : α)
    (h : getVal m k = some v) : k ∈ m.map Prod.fst := by
  induction m with
  | nil => simp [getVal] at h
  | cons p rest ih =>
    obtain ⟨k1, w⟩ := p
    unfold getVal at h
    by_cases h1 : k1 = k
    · subst h1
      exact List.mem_cons.mpr (Or.inl rfl)
    · rw [if_neg h1] at h
      exact List.mem_cons.mpr (Or.inr (ih h))

theorem chase_total_aux (deps : List (String × Dep)) (hac : AcyclicDeps deps) :
    ∀ (m : Nat) (seen : List String) (nm : String) (last0 : Option Dep),
      seen.Nodup →
      (∀ s ∈ seen, (getVal deps s).isSome) →
      (∀ s ∈ seen, Relation.TransGen (depStep deps) s nm) →
      (depKeys deps).length ≤ m + seen.length →
      (chase deps m nm last0).isSome := by
  intro m
  induction m with
  | zero =>
    intro seen nm last0 hnd hmem hreach hcount
    unfold chase
    cases hv : getVal deps nm with
    | none => simp
    | some d =>
      exfalso
      have hnm_not : nm ∉ seen := fun hin => hac nm (hreach nm hin)
      have hsub : (nm :: seen) ⊆ depKeys deps := by
        intro x hx
        rcases List.mem_cons.mp hx with rfl | hs
        · exact List.mem_dedup.mpr (getVal_mem_keys deps x d hv)
        · obtain ⟨d2, hd2⟩ := Option.isSome_iff_exists.mp (hmem x hs)
          exact List.mem_dedup.mpr (getVal_mem_keys deps x d2 hd2)
      have hnd2 : (nm :: seen).Nodup := List.nodup_cons.mpr ⟨hnm_not, hnd⟩
      have hlen : (nm :: seen).length ≤ (depKeys deps).length :=
        (hnd2.subperm hsub).length_le
      simp only [List.length_cons] at hlen
      omega
  | succ f ih =>
    intro seen nm last0 hnd hmem hreach hcount
    unfold chase
    cases hv : getVal deps nm with
    | none => simp
    | some d =>
      have hnm_not : nm ∉ seen := fun hin => hac nm (hreach nm hin)
      have hstep : depStep deps nm d.toName := ⟨d, hv, rfl⟩
      have happ := ih (nm :: seen) d.toName (some d)
        (List.nodup_cons.mpr ⟨hnm_not, hnd⟩)
        (fun s hs => by
          rcases List.mem_cons.mp hs with rfl | hs2
          · rw [hv]; rfl
          · exact hmem s hs2)
        (fun s hs => by
          rcases List.mem_cons.mp hs with rfl | hs2
          · exact Relation.TransGen.single hstep
          · exact (hreach s hs2).tail hstep)
        (by simp only [List.length_cons]; omega)
      exact happ

/-- Claim C9: for every deprecation table whose alias graph is acyclic, the
chain-resolution loop of `hook` terminates — with fuel bounded by the number
of alias keys it reaches a name with no further alias entry.  (No cycle
guard exists in the code: termination is claimed only under acyclicity.) -/
theorem claim9_chain_termination (deps : List (String × Dep))
    (hac : AcyclicDeps deps) (nm : String) :
    ∃ r last, chase deps ((depKeys deps).length) nm none = some (r, last)
      ∧ getVal deps r = none := by
  have h := chase_total_aux deps hac ((depKeys deps).length) [] nm none
    (List.nodup_nil) (by simp) (by simp) (by simp)
  obtain ⟨out, hout⟩ := Option.isSome_iff_exists.mp h
  obtain ⟨r, last⟩ := out
  exact ⟨r, last, hout, chase_final deps _ nm none r last hout⟩

/-- An alias graph admitting a strictly decreasing rank along hops is
acyclic. -/
theorem acyclic_of_rank (deps : List (String × Dep)) (rank : String → Nat)
    (h : ∀ a b, depStep deps a b → rank b < rank a) : AcyclicDeps deps := by
  intro a hcyc
  have hlt : ∀ x y, Relation.TransGen (depStep deps) x y → rank y < rank x := by
    intro x y hxy
    induction hxy with
    | single hs => exact h _ _ hs
    | tail hxy2 hs ih => exact Nat.lt_trans (h _ _ hs) ih
  exact absurd (hlt a a hcyc) (Nat.lt_irrefl _)

/-- Witness for C9 at the concrete two-hop table a->b->c. -/
theorem claim9_chain_termination_witness :
    ∃ r last,
      chase [("a", Dep.mk "b" none), ("b", Dep.mk "c" none)]
          ((depKeys [("a", Dep.mk "b" none), ("b", Dep.mk "c" none)]).length) "a" none
        = some (r, last)
      ∧ getVal [("a", Dep.mk "b" none), ("b", Dep.mk "c" none)] r = none :=
  claim9_chain_termination [("a", Dep.mk "b" none), ("b", Dep.mk "c" none)]
    (acyclic_of_rank _ (fun s => if s = "a" then 2 else if s = "b" then 1 else 0)
      (by
        intro a b hstep
        obtain ⟨d, hd, hto⟩ := hstep
        subst hto
        simp only [getVal] at hd
        split_ifs at hd with h1 h2
        · obtain rfl := Option.some.inj hd
          subst h1
          decide
        · obtain rfl := Option.some.inj hd
          subst h2
          decide))
    "a"

theorem fold_hook_migration (nm : String) (fuel : Nat) (r : String) (last : Option Dep)
    (hnm : nm ≠ "") :
    ∀ (l : List Cb) (s : Hookable),
      chase s.deprecatedHooks fuel nm none = some (r, last) →
      ∃ s2,
        l.foldlM (fun t cb => (hook t nm (some cb) false fuel).map Prod.fst) s = some s2
        ∧ s2.deprecatedHooks = s.deprecatedHooks
        ∧ s2.before = s.before ∧ s2.after = s.after
        ∧ (l = [] → s2 = s)
        ∧ (l ≠ [] →
            s2.hooks = setVal s.hooks r (some ((hooksGet s r).getD [] ++ l))
            ∧ s2.deprecatedMessages = warnSet s.deprecatedMessages nm last false
            ∧ s2.warned = s.warned ++ warnDelta s.deprecatedMessages nm last false) := by
  intro l
  induction l with
  | nil =>
    intro s hch
    exact ⟨s, rfl, rfl, rfl, rfl, fun _ => rfl, fun hne => absurd rfl hne⟩
  | cons c rest ih =>
    intro s hch
    have hk := hook_eq_of_chase s nm c false fuel r last hnm hch
    have hchA : chase
        ({ s with
            hooks := setVal s.hooks r (some ((hooksGet s r).getD [] ++ [c])),
            deprecatedMessages := warnSet s.deprecatedMessages nm last false,
            warned := s.warned ++ warnDelta s.deprecatedMessages nm last false } :
          Hookable).deprecatedHooks fuel nm none = some (r, last) := hch
    obtain ⟨s2, hfold, hdeps, hbef, haft, hnil, hconsc⟩ := ih _ hchA
    refine ⟨s2, ?_, hdeps, hbef, haft,
      fun hcontra => absurd hcontra (List.cons_ne_nil c rest), fun _ => ?_⟩
    · rw [List.foldlM_cons, hk]
      exact hfold
    · have hbucketA : hooksGet
          ({ s with
              hooks := setVal s.hooks r (some ((hooksGet s r).getD [] ++ [c])),
              deprecatedMessages := warnSet s.deprecatedMessages nm last false,
              warned := s.warned ++ warnDelta s.deprecatedMessages nm last false } :
            Hookable) r = some ((hooksGet s r).getD [] ++ [c]) := by
        unfold hooksGet
        dsimp only
        rw [getVal_setVal_self]
      by_cases hrest : rest = []
      · subst hrest
        have hs2 := hnil rfl
        subst hs2
        exact ⟨rfl, rfl, rfl⟩
      · obtain ⟨h1, h2, h3⟩ := hconsc hrest
        refine ⟨?_, ?_, ?_⟩
        · rw [h1, hbucketA]
          simp only [Option.getD_some]
          simp only [setVal_setVal, List.append_assoc]
          rfl
        · rw [h2]
          simp only [warnSet_warnSet]
        · rw [h3]
          simp only [warnDelta_warnSet, List.append_nil]

theorem deprecateHook_spec (st : Hookable) (name : String) (dep : Dep) (fuel : Nat)
    (r : String) (last : Option Dep) (l : List Cb)
    (hnm : name ≠ "")
    (hl : hooksGet st name = some l)
    (hch : chase (setVal st.deprecatedHooks name dep) fuel name none = some (r, last))
    (hr : r ≠ name) :
    ∃ st2, deprecateHook st name dep fuel = some st2
      ∧ getVal st2.hooks name = some none
      ∧ dispatchSnapshot st2 r = dispatchSnapshot st r ++ l
      ∧ (l ≠ [] →
          st2.warned = st.warned ++ warnDelta st.deprecatedMessages name last false) := by
  have heq : deprecateHook st name dep fuel =
      l.foldlM (fun s cb => (hook s name (some cb) false fuel).map Prod.fst)
        ({ st with deprecatedHooks := setVal st.deprecatedHooks name dep,
                   hooks := setVal st.hooks name none } : Hookable) := by
    unfold deprecateHook
    dsimp only
    rw [hooksGet_eq_of_hooks_eq st
        ({ st with deprecatedHooks := setVal st.deprecatedHooks name dep } : Hookable)
        rfl name, hl]
    rfl
  have hchB : chase
      ({ st with deprecatedHooks := setVal st.deprecatedHooks name dep,
                 hooks := setVal st.hooks name none } : Hookable).deprecatedHooks
      fuel name none = some (r, last) := hch
  obtain ⟨s2, hfold, hdeps, hbef, haft, hnil, hconsc⟩ :=
    fold_hook_migration name fuel r last hnm l _ hchB
  have hbucketB : hooksGet
      ({ st with deprecatedHooks := setVal st.deprecatedHooks name dep,
                 hooks := setVal st.hooks name none } : Hookable) r = hooksGet st r := by
    unfold hooksGet
    dsimp only
    rw [getVal_setVal_ne _ _ _ _ hr]
  refine ⟨s2, heq.trans hfold, ?_, ?_, ?_⟩
  · by_cases hle : l = []
    · have hs2 := hnil hle
      subst hs2
      dsimp only
      rw [getVal_setVal_self]
    · obtain ⟨h1, _, _⟩ := hconsc hle
      rw [h1, getVal_setVal_ne _ _ _ _ (Ne.symm hr)]
      dsimp only
      rw [getVal_setVal_self]
  · by_cases hle : l = []
    · subst hle
      have hs2 := hnil rfl
      subst hs2
      rw [List.append_nil]
      exact dispatchSnapshot_setVal_ne _ st name r none rfl hr
  
    · obtain ⟨h1, _, _⟩ := hconsc hle
      rw [dispatchSnapshot_setVal_self s2 _ r _ h1]
      rw [show dispatchSnapshot st r = (hooksGet st r).getD [] from rfl, ← hbucketB]
  · intro hle
    obtain ⟨_, _, h3⟩ := hconsc hle
    exact h3

/-- Claim C2: deprecation aliases form a forwarding chain followed at
registration time.  First conjunct (concrete): after deprecating a→b and
b→c, `hook("a", cb)` stores `cb` under `"c"` and a dispatch of `"c"`
invokes it.  Second conjunct (general): callbacks already registered
directly under a name when `deprecateHook` runs are migrated through the
same chain resolution onto the final name, and the old direct bucket is
cleared (left as `undefined`). -/
theorem claim2_deprecation_chain (st : Hookable) (name : String) (dep : Dep)
    (fuel : Nat) (r : String) (last : Option Dep) (l : List Cb)
    (hnm : name ≠ "") (hl : hooksGet st name = some l)
    (hch : chase (setVal st.deprecatedHooks name dep) fuel name none = some (r, last))
    (hr : r ≠ name) :
    ((deprecateHook hookableInit "a" (Dep.mk "b" none) 3).bind (fun s1 =>
      (deprecateHook s1 "b" (Dep.mk "c" none) 3).bind (fun s2 =>
        (hook s2 "a" (some 5) false 3).map (fun p =>
          (dispatchSnapshot p.1 "c",
           invokedHooks (callHookWith p.1 (fun _ _ => Outcome.sync 0) "c" []).1)))))
      = some ([5], [5])
    ∧ ∃ st2, deprecateHook st name dep fuel = some st2
        ∧ getVal st2.hooks name = some none
        ∧ dispatchSnapshot st2 r = dispatchSnapshot st r ++ l := by
  constructor
  · decide
  · obtain ⟨st2, h1, h2, h3, _⟩ :=
      deprecateHook_spec st name dep fuel r last l hnm hl hch hr
    exact ⟨st2, h1, h2, h3⟩

/-- Witness for the general migration part of C2 at a concrete registry. -/
theorem claim2_deprecation_chain_witness :
    ∃ st2, deprecateHook ⟨[("a", some [1])], none, none, [], none, []⟩ "a"
        (Dep.mk "b" none) 2 = some st2
      ∧ getVal st2.hooks "a" = some none
      ∧ dispatchSnapshot st2 "b" =
          dispatchSnapshot ⟨[("a", some [1])], none, none, [], none, []⟩ "b" ++ [1] :=
  (claim2_deprecation_chain ⟨[("a", some [1])], none, none, [], none, []⟩ "a"
    (Dep.mk "b" none) 2 "b" (some (Dep.mk "b" none)) [1]
    (by decide) (by decide) (by decide) (by decide)).2

/-- Claim C5: registering on a deprecated name (a hop occurred) without
`allowDeprecated` warns exactly once per distinct message: the first
registration appends the message to the warn log, a second registration
with a different callback appends nothing; with `allowDeprecated` no
warning state changes but the callback is still stored under the final
target; the message is the configured one when truthy, otherwise the
synthesized `"<name> hook has been deprecated"` text with the
`", please use <target>"` suffix when the final target is truthy — and the
final target is exactly the last record's `to`, itself unaliased. -/
theorem claim5_deprecation_warning (st : Hookable) (name : String) (cb1 cb2 : Cb)
    (fuel : Nat) (r : String) (dep : Dep)
    (hnm : name ≠ "")
    (hch : chase st.deprecatedHooks fuel name none = some (r, some dep))
    (hfresh : depMessage name dep ∉ st.deprecatedMessages.getD []) :
    ∃ st1 h1, hook st name (some cb1) false fuel = some (st1, h1)
      ∧ st1.warned = st.warned ++ [depMessage name dep]
      ∧ (∃ st2 h2, hook st1 name (some cb2) false fuel = some (st2, h2)
          ∧ st2.warned = st1.warned)
      ∧ (∃ st3 h3, hook st name (some cb1) true fuel = some (st3, h3)
          ∧ st3.warned = st.warned
          ∧ st3.deprecatedMessages = st.deprecatedMessages
          ∧ dispatchSnapshot st3 r = dispatchSnapshot st r ++ [cb1])
      ∧ r = dep.toName
      ∧ getVal st.deprecatedHooks r = none
      ∧ (dep.message = none →
          depMessage name dep = name ++ " hook has been deprecated" ++
            (if dep.toName = "" then "" else ", please use " ++ dep.toName))
      ∧ (∀ m0, dep.message = some m0 → m0 ≠ "" → depMessage name dep = m0) := by
  have hdelta : warnDelta st.deprecatedMessages name (some dep) false =
      [depMessage name dep] := by
    unfold warnDelta
    simp [hfresh]
  have hk1 := hook_eq_of_chase st name cb1 false fuel r (some dep) hnm hch
  refine ⟨_, _, hk1, ?_, ?_, ?_, ?_, ?_, ?_, ?_⟩
  · dsimp only
    rw [hdelta]
  · have hk2 := hook_eq_of_chase
      ({ st with
          hooks := setVal st.hooks r (some ((hooksGet st r).getD [] ++ [cb1])),
          deprecatedMessages := warnSet st.deprecatedMessages name (some dep) false,
          warned := st.warned ++ warnDelta st.deprecatedMessages name (some dep) false } :
        Hookable) name cb2 false fuel r (some dep) hnm hch
    refine ⟨_, _, hk2, ?_⟩
    dsimp only
    rw [warnDelta_warnSet, List.append_nil]
  · have hk3 := hook_eq_of_chase st name cb1 true fuel r (some dep) hnm hch
    refine ⟨_, _, hk3, ?_, ?_, ?_⟩
    · dsimp only
      rw [show warnDelta st.deprecatedMessages name (some dep) true = [] from rfl,
        List.append_nil]
    · dsimp only
      rfl
    · exact dispatchSnapshot_setVal_self _ st r _ rfl
  · exact chase_last_toName st.deprecatedHooks fuel name none r dep
      (fun d hd => Option.noConfusion hd) hch
  · exact chase_final st.deprecatedHooks fuel name none r (some dep) hch
  · intro hmm
    unfold depMessage
    rw [hmm]
  · intro m0 hm0 hne
    unfold depMessage
    rw [hm0]
    simp [hne]

/-- Witness for C5 at a one-hop table old→new. -/
theorem claim5_deprecation_warning_witness :
    ∃ st1 h1, hook ⟨[], none, none, [("old", Dep.mk "new" none)], none, []⟩ "old"
        (some 1) false 2 = some (st1, h1)
      ∧ st1.warned = [] ++ [depMessage "old" (Dep.mk "new" none)]
      ∧ (∃ st2 h2, hook st1 "old" (some 2) false 2 = some (st2, h2)
          ∧ st2.warned = st1.warned)
      ∧ (∃ st3 h3, hook ⟨[], none, none, [("old", Dep.mk "new" none)], none, []⟩ "old"
            (some 1) true 2 = some (st3, h3)
          ∧ st3.warned = []
          ∧ st3.deprecatedMessages = none
          ∧ dispatchSnapshot st3 "new" =
              dispatchSnapshot ⟨[], none, none, [("old", Dep.mk "new" none)], none, []⟩
                "new" ++ [1])
      ∧ "new" = (Dep.mk "new" none).toName
      ∧ getVal [("old", Dep.mk "new" none)] "new" = none
      ∧ ((Dep.mk "new" none).message = none →
          depMessage "old" (Dep.mk "new" none) = "old" ++ " hook has been deprecated" ++
            (if (Dep.mk "new" none).toName = "" then ""
             else ", please use " ++ (Dep.mk "new" none).toName))
      ∧ (∀ m0, (Dep.mk "new" none).message = some m0 → m0 ≠ "" →
          depMessage "old" (Dep.mk "new" none) = m0) :=
  claim5_deprecation_warning ⟨[], none, none, [("old", Dep.mk "new" none)], none, []⟩
    "old" 1 2 2 "new" (Dep.mk "new" none) (by decide) (by decide) (by decide)

/-- Claim C10: when `deprecateHook(name, target)` runs while callbacks are
registered directly under `name`, the migration re-registers them through
`hook` without `allowDeprecated`, so the deprecation warning for `name` is
emitted during the `deprecateHook` call itself (once — the same message is
deduplicated across the migrated callbacks and any later registration, as
the second conjunct states for the warning block). -/
theorem claim10_deprecate_warns_immediately (st : Hookable) (name : String)
    (dep : Dep) (fuel : Nat) (r : String) (lastd : Dep) (l : List Cb)
    (hnm : name ≠ "")
    (hl : hooksGet st name = some l) (hlne : l ≠ [])
    (hch : chase (setVal st.deprecatedHooks name dep) fuel name none
      = some (r, some lastd))
    (hr : r ≠ name)
    (hfresh : depMessage name lastd ∉ st.deprecatedMessages.getD []) :
    (∃ st2, deprecateHook st name dep fuel = some st2
        ∧ st2.warned = st.warned ++ [depMessage name lastd])
    ∧ (∀ s o ld, depMessage o ld ∈ s.deprecatedMessages.getD [] →
        (applyWarn s o (some ld) false).warned = s.warned) := by
  constructor
  · obtain ⟨st2, h1, _, _, h4⟩ :=
      deprecateHook_spec st name dep fuel r (some lastd) l hnm hl hch hr
    refine ⟨st2, h1, ?_⟩
    rw [h4 hlne]
    have hdelta : warnDelta st.deprecatedMessages name (some lastd) false =
        [depMessage name lastd] := by
      unfold warnDelta
      simp [hfresh]
    rw [hdelta]
  · intro s o ld hmem
    rw [applyWarn_eq]
    dsimp only
    unfold warnDelta
    simp [hmem]

/-- Witness for C10: deprecating `"a"` (holding one callback) to `"b"` warns
during the call; the dedup conjunct is instanced on a registry that already
recorded the message. -/
theorem claim10_deprecate_warns_immediately_witness :
    (∃ st2, deprecateHook ⟨[("a", some [1])], none, none, [], none, []⟩ "a"
        (Dep.mk "b" none) 2 = some st2
      ∧ st2.warned = [] ++ [depMessage "a" (Dep.mk "b" none)])
    ∧ (applyWarn ⟨[], none, none, [], some ["m"], []⟩ "x"
        (some (Dep.mk "y" (some "m"))) false).warned = [] := by
  have h := claim10_deprecate_warns_immediately
    ⟨[("a", some [1])], none, none, [], none, []⟩ "a" (Dep.mk "b" none) 2 "b"
    (Dep.mk "b" none) [1] (by decide) (by decide) (by decide) (by decide)
    (by decide) (by decide)
  exact ⟨h.1, h.2 ⟨[], none, none, [], some ["m"], []⟩ "x" (Dep.mk "y" (some "m"))
    (by decide)⟩

/-- The claimed hooks-map invariant: every present key stores a non-empty
callback sequence. -/
def hookKeyNonEmptyInv (st : Hookable) : Prop :=
  ∀ k v, getVal st.hooks k = some v → ∃ l, v = some l ∧ l ≠ []

/-- Counterexample to C7 as stated: `deprecateHook` writes
`this._hooks[name] = undefined`, so after deprecating `"a"` the key `"a"` is
present in the hooks mapping with an absent value and no non-empty
sequence. -/
theorem claim7_counterexample :
    ¬ hookKeyNonEmptyInv
      ((deprecateHook hookableInit "a" (Dep.mk "b" none) 1).getD hookableInit) := by
  intro hinv
  obtain ⟨l, hl, _⟩ := hinv "a" none (by decide)
  cases hl

/-- Well-formedness actually maintained by the operations: keys are unique,
and a key holding an *array* holds a non-empty one (a key may instead hold
the `undefined` placeholder that `deprecateHook` leaves behind). -/
def HookableWf (st : Hookable) : Prop :=
  (st.hooks.map Prod.fst).Nodup
  ∧ ∀ k l, getVal st.hooks k = some (some l) → l ≠ []

theorem wf_hook (st : Hookable) (nm : String) (fn : Option Cb) (al : Bool)
    (fuel : Nat) (st2 : Hookable) (h : Unreg)
    (hk : hook st nm fn al fuel = some (st2, h)) (hwf : HookableWf st) :
    HookableWf st2 := by
  cases fn with
  | none =>
    rw [hook_none] at hk
    simp only [Option.some.injEq, Prod.mk.injEq] at hk
    rw [← hk.1]
    exact hwf
  | some cb =>
    by_cases hnm : nm = ""
    · subst hnm
      rw [hook_empty_name] at hk
      simp only [Option.some.injEq, Prod.mk.injEq] at hk
      rw [← hk.1]
      exact hwf
    · cases hch : chase st.deprecatedHooks fuel nm none with
      | none =>
        unfold hook at hk
        dsimp only at hk
        rw [if_neg hnm, hch] at hk
        cases hk
      | some out =>
        obtain ⟨r, last⟩ := out
        rw [hook_eq_of_chase st nm cb al fuel r last hnm hch] at hk
        simp only [Option.some.injEq, Prod.mk.injEq] at hk
        rw [← hk.1]
        constructor
        · exact nodup_keys_setVal _ _ _ hwf.1
        · intro k l hget
          dsimp only at hget
          by_cases hkr : k = r
          · subst hkr
            rw [getVal_setVal_self] at hget
            simp only [Option.some.injEq] at hget
            rw [← hget]
            simp
          · rw [getVal_setVal_ne _ _ _ _ hkr] at hget
            exact hwf.2 k l hget

theorem wf_removeHook (st : Hookable) (nm : String) (cb : Cb)
    (hwf : HookableWf st) : HookableWf (removeHook st nm cb) := by
  unfold removeHook
  cases hg : hooksGet st nm with
  | none => exact hwf
  | some l =>
    dsimp only
    by_cases he : eraseFirst l cb = []
    · rw [if_pos he]
      constructor
      · exact nodup_keys_delVal _ _ hwf.1
      · intro k l2 hget
        by_cases hk2 : k = nm
        · subst hk2
          rw [getVal_delVal_self] at hget
          cases hget
        · rw [getVal_delVal_ne _ _ _ hk2] at hget
          exact hwf.2 k l2 hget
    · rw [if_neg he]
      constructor
      · exact nodup_keys_setVal _ _ _ hwf.1
      · intro k l2 hget
        by_cases hk2 : k = nm
        · subst hk2
          rw [getVal_setVal_self] at hget
          simp only [Option.some.injEq] at hget
          rw [← hget]
          exact he
        · rw [getVal_setVal_ne _ _ _ _ hk2] at hget
          exact hwf.2 k l2 hget

theorem foldlM_option_preserve {α σ : Type} (P : σ → Prop) (f : σ → α → Option σ)
    (hf : ∀ s a s2, P s → f s a = some s2 → P s2) :
    ∀ (l : List α) (s s2 : σ), P s → l.foldlM f s = some s2 → P s2 := by
  intro l
  induction l with
  | nil =>
    intro s s2 hp hfold
    rw [List.foldlM_nil] at hfold
    exact (Option.some.inj hfold) ▸ hp
  | cons a rest ih =>
    intro s s2 hp hfold
    rw [List.foldlM_cons] at hfold
    cases hf2 : f s a with
    | none => rw [hf2] at hfold; cases hfold
    | some sm =>
      rw [hf2] at hfold
      exact ih sm s2 (hf s a sm hp hf2) hfold

theorem foldl_preserve {α σ : Type} (P : σ → Prop) (f : σ → α → σ)
    (hf : ∀ s a, P s → P (f s a)) : ∀ (l : List α) (s : σ), P s → P (l.foldl f s) := by
  intro l
  induction l with
  | nil => intro s hp; exact hp
  | cons a rest ih => intro s hp; exact ih (f s a) (hf s a hp)

theorem wf_hook_step (nm : String) (fuel : Nat) :
    ∀ (s : Hookable) (cb : Cb) (s2 : Hookable), HookableWf s →
      (hook s nm (some cb) false fuel).map Prod.fst = some s2 → HookableWf s2 := by
  intro s cb s2 hp hstep
  cases hk : hook s nm (some cb) false fuel with
  | none => rw [hk] at hstep; cases hstep
  | some p =>
    rw [hk] at hstep
    simp only [Option.map_some', Option.some.injEq] at hstep
    rw [← hstep]
    exact wf_hook s nm (some cb) false fuel p.1 p.2 (by rw [hk]) hp

theorem wf_deprecateHook (st : Hookable) (nm : String) (dep : Dep) (fuel : Nat)
    (st2 : Hookable) (hdh : deprecateHook st nm dep fuel = some st2)
    (hwf : HookableWf st) : HookableWf st2 := by
  unfold deprecateHook at hdh
  dsimp only at hdh
  have hwfB : HookableWf
      ({ st with deprecatedHooks := setVal st.deprecatedHooks nm dep,
                 hooks := setVal st.hooks nm none } : Hookable) := by
    constructor
    · exact nodup_keys_setVal _ _ _ hwf.1
    · intro k l hget
      dsimp only at hget
      by_cases hk2 : k = nm
      · subst hk2
        rw [getVal_setVal_self] at hget
        cases hget
      · rw [getVal_setVal_ne _ _ _ _ hk2] at hget
        exact hwf.2 k l hget
  exact foldlM_option_preserve HookableWf _
    (fun s cb s2 => wf_hook_step nm fuel s cb s2) _ _ st2 hwfB hdh

theorem wf_deprecateHooks (st : Hookable) (entries : List (String × Dep)) (fuel : Nat)
    (st2 : Hookable) (hdh : deprecateHooks st entries fuel = some st2)
    (hwf : HookableWf st) : HookableWf st2 := by
  unfold deprecateHooks at hdh
  have hwf0 : HookableWf (entries.foldl
      (fun s e => { s with deprecatedHooks := setVal s.deprecatedHooks e.1 e.2 }) st) :=
    foldl_preserve HookableWf
      (fun s e => { s with deprecatedHooks := setVal s.deprecatedHooks e.1 e.2 })
      (fun s a hp => hp) entries st hwf
  exact foldlM_option_preserve HookableWf _
    (fun s e s2 hp hstep => wf_deprecateHook s e.1 e.2 fuel s2 hstep hp)
    entries _ st2 hwf0 hdh

theorem wf_addHooks (st : Hookable) (cfg : List (String × NestedHooks)) (fuel : Nat)
    (st2 : Hookable) (h2 : CompositeHandle)
    (hadd : addHooks st cfg fuel = some (st2, h2)) (hwf : HookableWf st) :
    HookableWf st2 := by
  unfold addHooks at hadd
  dsimp only at hadd
  cases hfold : (flatHooks cfg).foldlM
      (fun (acc : Hookable × List Unreg) e =>
        (hook acc.1 e.1 (some e.2) false fuel).map (fun p => (p.1, acc.2 ++ [p.2])))
      (st, []) with
  | none => rw [hfold] at hadd; cases hadd
  | some p =>
    rw [hfold] at hadd
    simp only [Option.map_some', Option.some.injEq, Prod.mk.injEq] at hadd
    have hp : HookableWf p.1 := by
      refine foldlM_option_preserve (fun q : Hookable × List Unreg => HookableWf q.1)
        _ ?_ (flatHooks cfg) (st, []) p hwf hfold
      intro q e q2 hq hstep
      cases hk : hook q.1 e.1 (some e.2) false fuel with
      | none => rw [hk] at hstep; cases hstep
      | some pr =>
        rw [hk] at hstep
        simp only [Option.map_some', Option.some.injEq] at hstep
        rw [← hstep]
        exact wf_hook q.1 e.1 (some e.2) false fuel pr.1 pr.2 (by rw [hk]) hq
    rw [← hadd.1]
    exact hp

theorem wf_runUnreg (st : Hookable) (u : Unreg) (hwf : HookableWf st) :
    HookableWf (runUnreg u st).2 := by
  unfold runUnreg
  cases u.ref with
  | none => exact hwf
  | some cb => exact wf_removeHook st u.name cb hwf

theorem wf_applyHookOp (fuel : Nat) (st : Hookable) (op : HookOp) (st2 : Hookable)
    (happ : applyHookOp fuel st op = some st2) (hwf : HookableWf st) :
    HookableWf st2 := by
  cases op with
  | opHook n fn al =>
    unfold applyHookOp at happ
    dsimp only at happ
    cases hk : hook st n fn al fuel with
    | none => rw [hk] at happ; cases happ
    | some p =>
      rw [hk] at happ
      simp only [Option.map_some', Option.some.injEq] at happ
      rw [← happ]
      exact wf_hook st n fn al fuel p.1 p.2 (by rw [hk]) hwf
  | opHookOnce n w =>
    unfold applyHookOp at happ
    dsimp only at happ
    cases hk : hook st n (some w) false fuel with
    | none => rw [hk] at happ; cases happ
    | some p =>
      rw [hk] at happ
      simp only [Option.map_some', Option.some.injEq] at happ
      rw [← happ]
      exact wf_hook st n (some w) false fuel p.1 p.2 (by rw [hk]) hwf
  | opRemoveHook n cb =>
    unfold applyHookOp at happ
    dsimp only at happ
    simp only [Option.some.injEq] at happ
    rw [← happ]
    exact wf_removeHook st n cb hwf
  | opDeprecateHook n d =>
    exact wf_deprecateHook st n d fuel st2 happ hwf
  | opDeprecateHooks es =>
    exact wf_deprecateHooks st es fuel st2 happ hwf
  | opAddHooks cfg =>
    unfold applyHookOp at happ
    dsimp only at happ
    cases hk : addHooks st cfg fuel with
    | none => rw [hk] at happ; cases happ
    | some p =>
      rw [hk] at happ
      simp only [Option.map_some', Option.some.injEq] at happ
      rw [← happ]
      exact wf_addHooks st cfg fuel p.1 p.2 (by rw [hk]) hwf
  | opRemoveHooks cfg =>
    unfold applyHookOp at happ
    dsimp only at happ
    simp only [Option.some.injEq] at happ
    rw [← happ]
    unfold removeHooks
    exact foldl_preserve HookableWf _ (fun s e hp => wf_removeHook s e.1 e.2 hp)
      (flatHooks cfg) st hwf
  | opUnregister u =>
    unfold applyHookOp at happ
    dsimp only at happ
    simp only [Option.some.injEq] at happ
    rw [← happ]
    exact wf_runUnreg st u hwf

theorem runHookOps_preserve (fuel : Nat) :
    ∀ (ops : List HookOp) (st st2 : Hookable), HookableWf st →
      runHookOps fuel ops st = some st2 → HookableWf st2 := by
  intro ops
  induction ops with
  | nil =>
    intro st st2 hwf h
    unfold runHookOps at h
    exact (Option.some.inj h) ▸ hwf
  | cons op rest ih =>
    intro st st2 hwf h
    unfold runHookOps at h
    cases happ : applyHookOp fuel st op with
    | none => rw [happ] at h; cases h
    | some sm =>
      rw [happ] at h
      exact ih sm st2 (wf_applyHookOp fuel st op sm happ hwf) h

/-- Claim C7, amended: in every registry state reachable by any sequence of
public operations, hook keys are unique and every key that stores an array
stores a non-empty one.  The unrestricted claim "present iff non-empty"
fails: `deprecateHook` leaves the deprecated key present with an
`undefined` value (see the counterexample). -/
theorem claim7_hooks_invariant_amended (fuel : Nat) (ops : List HookOp)
    (st2 : Hookable) (h : runHookOps fuel ops hookableInit = some st2) :
    (st2.hooks.map Prod.fst).Nodup
    ∧ (∀ k l, getVal st2.hooks k = some (some l) → l ≠ []) := by
  have hwf0 : HookableWf hookableInit := by
    constructor
    · simp [hookableInit]
    · intro k l hget
      cases hget
  exact runHookOps_preserve fuel ops hookableInit st2 hwf0 h

/-- Witness for the amended C7 after one registration. -/
theorem claim7_hooks_invariant_amended_witness :
    (((⟨[("a", some [5])], none, none, [], none, []⟩ : Hookable).hooks.map
        Prod.fst).Nodup)
    ∧ ([5] : List Cb) ≠ [] := by
  have h := claim7_hooks_invariant_amended 1 [HookOp.opHook "a" (some 5) false]
    ⟨[("a", some [5])], none, none, [], none, []⟩ (by decide)
  exact ⟨h.1, h.2 "a" [5] (by decide)⟩

theorem hook_mono_no_deps (fuel : Nat) (s : Hookable) (nm : String) (c : Cb)
    (al : Bool) (s2 : Hookable) (h : Unreg)
    (hdeps : s.deprecatedHooks = [])
    (hk : hook s nm (some c) al fuel = some (s2, h)) :
    ∀ x cb0, cb0 ∈ dispatchSnapshot s x → cb0 ∈ dispatchSnapshot s2 x := by
  by_cases hnm : nm = ""
  · subst hnm
    rw [hook_empty_name] at hk
    simp only [Option.some.injEq, Prod.mk.injEq] at hk
    rw [← hk.1]
    exact fun x cb0 hm => hm
  · have hch : chase s.deprecatedHooks fuel nm none = some (nm, none) := by
      rw [hdeps]
      exact chase_of_no_deps fuel nm
    rw [hook_eq_of_chase s nm c al fuel nm none hnm hch] at hk
    simp only [Option.some.injEq, Prod.mk.injEq] at hk
    rw [← hk.1]
    intro x cb0 hm
    by_cases hx : x = nm
    · subst hx
      rw [dispatchSnapshot_setVal_self _ s x _ rfl]
      exact List.mem_append.mpr (Or.inl hm)
    · rw [dispatchSnapshot_setVal_ne _ s nm x _ rfl hx]
      exact hm

theorem hook_registers_no_deps (fuel : Nat) (s : Hookable) (nm : String) (c : Cb)
    (al : Bool) (s2 : Hookable) (h : Unreg)
    (hdeps : s.deprecatedHooks = []) (hnm : nm ≠ "")
    (hk : hook s nm (some c) al fuel = some (s2, h)) :
    c ∈ dispatchSnapshot s2 nm := by
  have hch : chase s.deprecatedHooks fuel nm none = some (nm, none) := by
    rw [hdeps]
    exact chase_of_no_deps fuel nm
  rw [hook_eq_of_chase s nm c al fuel nm none hnm hch] at hk
  simp only [Option.some.injEq, Prod.mk.injEq] at hk
  rw [← hk.1]
  rw [dispatchSnapshot_setVal_self _ s nm _ rfl]
  exact List.mem_append.mpr (Or.inr (List.mem_singleton.mpr rfl))

theorem addHooks_fold_mem (fuel : Nat) :
    ∀ (entries : List (String × Cb)) (s : Hookable) (acc : List Unreg)
      (p : Hookable × List Unreg),
      s.deprecatedHooks = [] →
      entries.foldlM
          (fun (q : Hookable × List Unreg) e =>
            (hook q.1 e.1 (some e.2) false fuel).map (fun pr => (pr.1, q.2 ++ [pr.2])))
          (s, acc) = some p →
      (∀ e ∈ entries, e.1 ≠ "" → e.2 ∈ dispatchSnapshot p.1 e.1)
      ∧ (∀ x cb0, cb0 ∈ dispatchSnapshot s x → cb0 ∈ dispatchSnapshot p.1 x) := by
  intro entries
  induction entries with
  | nil =>
    intro s acc p hdeps hfold
    rw [List.foldlM_nil] at hfold
    obtain rfl := (Option.some.inj hfold).symm
    exact ⟨fun e he => absurd he (List.not_mem_nil e), fun x cb0 hm => hm⟩
  | cons e rest ih =>
    intro s acc p hdeps hfold
    rw [List.foldlM_cons] at hfold
    cases hk : hook s e.1 (some e.2) false fuel with
    | none =>
      rw [hk] at hfold
      cases hfold
    | some pr =>
      rw [hk] at hfold
      have hdeps1 : pr.1.deprecatedHooks = [] := by
        rw [(hook_some_fields s e.1 (some e.2) false fuel pr.1 pr.2
          (by rw [hk])).1, hdeps]
      obtain ⟨hmem, hmono⟩ := ih pr.1 (acc ++ [pr.2]) p hdeps1 hfold
      refine ⟨?_, fun x cb0 hm => hmono x cb0
        (hook_mono_no_deps fuel s e.1 e.2 false pr.1 pr.2 hdeps (by rw [hk]) x cb0 hm)⟩
      intro e2 he2 hne
      rcases List.mem_cons.mp he2 with rfl | hrest
      · exact hmono e2.1 e2.2
          (hook_registers_no_deps fuel s e2.1 e2.2 false pr.1 pr.2 hdeps hne (by rw [hk]))
      · exact hmem e2 hrest hne

/-- Claim C8: `addHooks` registers every entry of the flattened config
(nested keys joined with `.` down to the callable leaves) and returns one
composite handle over all the unregister handles; invoking the composite
handle drains its pending list on first use, so a second invocation — on
any registry state — performs no operations and changes nothing.  The first
conjunct runs the concrete `{a: {b: fn}}` round trip. -/
theorem claim8_addHooks_composite (st : Hookable) (cfg : List (String × NestedHooks))
    (fuel : Nat) (st2 : Hookable) (h : CompositeHandle)
    (hdeps : st.deprecatedHooks = [])
    (hadd : addHooks st cfg fuel = some (st2, h)) :
    (∃ stc hc,
        addHooks hookableInit [("a", NestedHooks.node [("b", NestedHooks.leaf 7)])] 1
          = some (stc, hc)
        ∧ dispatchSnapshot stc "a.b" = [7]
        ∧ dispatchSnapshot (runComposite hc stc).2 "a.b" = []
        ∧ (runComposite hc stc).1 = ⟨[]⟩)
    ∧ (∀ e ∈ flatHooks cfg, e.1 ≠ "" → e.2 ∈ dispatchSnapshot st2 e.1)
    ∧ (∀ st3 st4 : Hookable, runComposite (runComposite h st3).1 st4 = (⟨[]⟩, st4)) := by
  refine ⟨?_, ?_, fun st3 st4 => rfl⟩
  · exact ⟨⟨[("a.b", some [7])], none, none, [], none, []⟩, ⟨[⟨"a.b", some 7⟩]⟩,
      by decide, by decide, by decide, by decide⟩
  · unfold addHooks at hadd
    dsimp only at hadd
    cases hfold : (flatHooks cfg).foldlM
        (fun (q : Hookable × List Unreg) e =>
          (hook q.1 e.1 (some e.2) false fuel).map (fun pr => (pr.1, q.2 ++ [pr.2])))
        (st, []) with
    | none => rw [hfold] at hadd; cases hadd
    | some p =>
      rw [hfold] at hadd
      simp only [Option.map_some', Option.some.injEq, Prod.mk.injEq] at hadd
      obtain ⟨hmem, _⟩ := addHooks_fold_mem fuel (flatHooks cfg) st [] p hdeps hfold
      rw [← hadd.1]
      exact hmem

/-- Witness for C8 at a concrete config with one nested entry. -/
theorem claim8_addHooks_composite_witness :
    (∃ stc hc,
        addHooks hookableInit [("a", NestedHooks.node [("b", NestedHooks.leaf 7)])] 1
          = some (stc, hc)
        ∧ dispatchSnapshot stc "a.b" = [7]
        ∧ dispatchSnapshot (runComposite hc stc).2 "a.b" = []
        ∧ (runComposite hc stc).1 = ⟨[]⟩)
    ∧ (∀ e ∈ flatHooks [("a", NestedHooks.node [("b", NestedHooks.leaf 7)])],
        e.1 ≠ "" → e.2 ∈ dispatchSnapshot
          (⟨[("a.b", some [7])], none, none, [], none, []⟩ : Hookable) e.1)
    ∧ (∀ st3 st4 : Hookable,
        runComposite (runComposite ⟨[⟨"a.b", some 7⟩]⟩ st3).1 st4 = (⟨[]⟩, st4)) :=
  claim8_addHooks_composite hookableInit
    [("a", NestedHooks.node [("b", NestedHooks.leaf 7)])] 1
    ⟨[("a.b", some [7])], none, none, [], none, []⟩ ⟨[⟨"a.b", some 7⟩]⟩
    rfl (by decide)
